import Mathlib

set_option linter.unusedSectionVars false

/-!
Shallow embedding of the kzg-rust library (src/utils.rs, src/kzg.rs,
src/asvc.rs) over an abstract scalar field, together with proofs about the
claims of the specification.

Group elements of G1 and G2 only ever arise as scalar multiples of the two
generators handed to `new`/`key_gen`, and the pairing is bilinear, so G1 and
G2 elements are modelled by their scalar coordinates in the scalar field and
`pairing a b` by the exponent product `a * b`.  Rust panics (index out of
range, `unwrap` of `None`/`Err`, the arkworks field division by zero inside
`/`) are modelled by `Option`, with `none` for an abort; a returned
`Result::Err` value is `some (Except.error e)`.
-/

namespace KzgRust

/-- Error kinds returned as `Err` by the helpers in `utils.rs`:
dividing by an empty or all-zero polynomial, and interpolation with
unequal point and value counts. -/
inductive PolyErr where
  | divisionByZero
  | lengthMismatch
deriving DecidableEq, Repr

instance {ε α : Type} [DecidableEq ε] [DecidableEq α] : DecidableEq (Except ε α) :=
  fun a b =>
  match a, b with
  | Except.error e, Except.error f =>
    if h : e = f then isTrue (by rw [h]) else isFalse (fun hh => h (by cases hh; rfl))
  | Except.ok x, Except.ok y =>
    if h : x = y then isTrue (by rw [h]) else isFalse (fun hh => h (by cases hh; rfl))
  | Except.error _, Except.ok _ => isFalse (fun hh => by cases hh)
  | Except.ok _, Except.error _ => isFalse (fun hh => by cases hh)

/-- The data the arkworks `PrimeField` trait supplies to `get_omega`:
the designated primitive root of the largest 2-power-order subgroup
(`TWO_ADIC_ROOT_OF_UNITY`) and that subgroup's 2-logarithm (`TWO_ADICITY`). -/
structure FieldConfig (F : Type) where
  two_adic_root_of_unity : F
  two_adicity : Nat
deriving DecidableEq

/-- Fuel-driven floor base-2 logarithm; the fuel only forces structural
recursion, and `log2N` below always supplies enough of it.  `log2N` agrees
with Mathlib's `Nat.log2` (theorem `log2N_eq` below) but, unlike it,
evaluates inside the kernel. -/
def log2fuel : Nat → Nat → Nat
  | 0, _ => 0
  | fuel + 1, n => if n ≤ 1 then 0 else log2fuel fuel (n / 2) + 1

/-- Floor base-2 logarithm (`⌊log₂ n⌋` for `n ≥ 1`, and `0` at `0`). -/
def log2N (n : Nat) : Nat := log2fuel n n

/-- Rust `usize::is_power_of_two`. -/
def isPow2 (n : Nat) : Bool := n ≠ 0 && 2 ^ log2N n = n

/-- Rust `usize::checked_next_power_of_two` on inputs small enough not to
overflow: the least power of two that is at least `n` (and `1` for `n = 0`). -/
def nextPow2 (n : Nat) : Nat := if n ≤ 1 then 1 else 2 ^ (log2N (n - 1) + 1)

/-- The `ark_std::log2` helper: the ceiling of `log₂ x` for `x > 0`, and `0`
at `0` (computed in Rust from leading-zero counts). -/
def ceilLog2 (x : Nat) : Nat :=
  if x = 0 then 0 else if isPow2 x then log2N x else log2N x + 1

/-- Iterated `square_in_place`: square `x` exactly `k` times. -/
def squareN {F : Type} [Mul F] (x : F) : Nat → F
  | 0 => x
  | k + 1 => squareN (x * x) k

/-- Rust `unwrap` on a `Result`: an `Err` value aborts, and an abort that
already happened propagates. -/
def unwrapResult {ε α : Type} : Option (Except ε α) → Option α
  | some (Except.ok a) => some a
  | _ => none

/-- Option-valued left fold, modelling a Rust loop that may abort partway. -/
def foldOption {α β : Type} (f : β → α → Option β) : β → List α → Option β
  | b, [] => some b
  | b, a :: l =>
    match f b a with
    | none => none
    | some b' => foldOption f b' l

/-- Option-valued map, modelling a Rust loop that fills one output slot per
index and may abort partway. -/
def mapOption {α β : Type} (f : α → Option β) : List α → Option (List β)
  | [] => some []
  | a :: l =>
    match f a, mapOption f l with
    | some b, some bs => some (b :: bs)
    | _, _ => none

variable {F : Type} [Field F] [DecidableEq F]

/-- Polynomial addition from `utils.rs::add`: both inputs are accumulated
entrywise into a zero vector of the longer length, so entry `i` of the
result is the sum of the (zero-padded) entries at `i`. -/
def add (p1 p2 : List F) : List F :=
  (List.range (max p1.length p2.length)).map (fun i => p1.getD i 0 + p2.getD i 0)

/-- Modelled from the spec: `scalar_mul` is imported from `utils` by
`asvc.rs` but its definition is absent from the sources in scope; per the
specification's key-generation step (`l_i(X) = a_i(X) · ω^i / degree`) it
scales a polynomial by a field element, multiplying every coefficient by
the scalar. -/
def scalar_mul (p : List F) (s : F) : List F := p.map (fun c => c * s)

/-- Polynomial multiplication from `utils.rs::mul`: a full convolution into a
vector of length `p1.len() + p2.len() - 1`.  Entry `k` accumulates every
product `p1[i] * p2[j]` with `i + j = k`; reads outside either list are `0`
here and contribute nothing, which matches the Rust double loop over the
actual index ranges. -/
def mul (p1 p2 : List F) : List F :=
  (List.range (p1.length + p2.length - 1)).map
    (fun k => ∑ i ∈ Finset.range (k + 1), p1.getD i 0 * p2.getD (k - i) 0)

/-- Point evaluation from `utils.rs::evaluate`: `Σ_i poly[i] · point^i`. -/
def evaluate (poly : List F) (point : F) : F :=
  ∑ i ∈ Finset.range poly.length, poly.getD i 0 * point ^ i

/-- The trailing-zero popping loop inside `utils.rs::div`
(pop while the last coefficient is zero). -/
def popZeros (l : List F) : List F :=
  (l.reverse.dropWhile (fun x => decide (x = 0))).reverse

/-- The synthetic-division loop of `utils.rs::div`.  One fuel unit is spent
per iteration (`div` passes the numerator length, which bounds the number of
iterations).  `none` models a Rust panic: the arkworks division
`remainder.last / p2.last` unwraps a field inverse and panics when
`p2.last` is zero. -/
def divLoop (p2 : List F) : Nat → List F → List F → Option (List F × List F)
  | 0, quotient, remainder =>
    if remainder.length < p2.length then some (quotient, remainder) else none
  | fuel + 1, quotient, remainder =>
    if remainder.length < p2.length then some (quotient, remainder)
    else
      match remainder.getLast?, p2.getLast? with
      | some rlast, some plast =>
        if plast = 0 then none
        else
          let coeff := rlast / plast
          let pos := remainder.length - p2.length
          let quotient' := quotient.set pos coeff
          let remainder' :=
            remainder.take pos ++
              List.zipWith (fun a b => a - b * coeff) (remainder.drop pos) p2
          divLoop p2 fuel quotient' (popZeros remainder')
      | _, _ => none

/-- Polynomial division from `utils.rs::div`.  `Except.error` is the
returned `Err` value; the outer `none` models a panic inside the loop. -/
def div (p1 p2 : List F) : Option (Except PolyErr (List F)) :=
  if p2.isEmpty ∨ ∀ x ∈ p2, x = 0 then some (Except.error PolyErr.divisionByZero)
  else if p1.length < p2.length then some (Except.ok [0])
  else
    match divLoop p2 p1.length (List.replicate (p1.length - p2.length + 1) 0) p1 with
    | some (q, _) => some (Except.ok q)
    | none => none

/-- Lagrange interpolation from `utils.rs::interpolate`.  The `i`-th step
builds the numerator `Π_{j≠i} (X - points[j])` and the scalar denominator
`Π_{j≠i} (points[i] - points[j])`; a zero denominator makes
`inverse().unwrap()` panic (`none`). -/
def interpolate (points values : List F) : Option (Except PolyErr (List F)) :=
  if points.length ≠ values.length then some (Except.error PolyErr.lengthMismatch)
  else
    (foldOption
      (fun result i =>
        let numerator := (List.range points.length).foldl
          (fun num j => if i = j then num else mul num [-(points.getD j 0), 1]) [1]
        let denominator := (List.range points.length).foldl
          (fun den j => if i = j then den else den * (points.getD i 0 - points.getD j 0)) 1
        if denominator = 0 then none
        else some (add result (numerator.map (fun x => x * values.getD i 0 * denominator⁻¹))))
      (List.replicate points.length 0)
      (List.range points.length)).map Except.ok

/-- Root-of-unity derivation from `utils.rs::get_omega`.  With `L` the input
length the code sets `n = L - 1` (for `L = 0` the `usize` subtraction
aborts); when `n` is not a power of two it assigns the padding to indices
`L..next_power_of_two(L)` of the unresized vector, an out-of-bounds panic
(`none`) unless that range is empty; in every surviving case the length is
still `L`, and the designated 2-adic root is squared down to order
`2^⌈log₂ L⌉`. -/
def get_omega (cfg : FieldConfig F) (coefficients : List F) : Option F :=
  match coefficients.length with
  | 0 => none
  | n + 1 =>
    if isPow2 n then
      some (squareN cfg.two_adic_root_of_unity (cfg.two_adicity - ceilLog2 (n + 1)))
    else if nextPow2 (n + 1) = n + 1 then
      some (squareN cfg.two_adic_root_of_unity (cfg.two_adicity - ceilLog2 (n + 1)))
    else none

/-- The pairing in the scalar model: `e(a·P, b·Q) = e(P,Q)^{ab}` is
determined by the exponent product `a * b`. -/
def pairing (a b : F) : F := a * b

/-- The KZG commitment scheme state from `kzg.rs`, with G1 and G2 elements
represented by their scalar coordinates relative to the two generators. -/
structure KZG (F : Type) where
  g1 : F
  g2 : F
  g2_tau : F
  degree : Nat
  crs_g1 : List F
  crs_g2 : List F
deriving DecidableEq

/-- `KZG::new`: empty CRS, `g2_tau = g2 · 0`. -/
def KZG.new (g1 g2 : F) (degree : Nat) : KZG F :=
  { g1 := g1, g2 := g2, g2_tau := g2 * 0, degree := degree, crs_g1 := [], crs_g2 := [] }

/-- `KZG::setup`: push `degree + 1` successive powers of the secret onto both
CRS vectors and record `g2_tau = g2 · secret`. -/
def KZG.setup (kzg : KZG F) (secret : F) : KZG F :=
  { kzg with
    crs_g1 := kzg.crs_g1 ++ (List.range (kzg.degree + 1)).map (fun i => kzg.g1 * secret ^ i),
    crs_g2 := kzg.crs_g2 ++ (List.range (kzg.degree + 1)).map (fun i => kzg.g2 * secret ^ i),
    g2_tau := kzg.g2 * secret }

/-- `KZG::commit`: `Σ_{i < degree+1} crs_g1[i] * poly[i]`; the loop always
runs over `degree + 1` slots, so either indexing panics (`none`) when its
list is shorter than `degree + 1`. -/
def KZG.commit (kzg : KZG F) (poly : List F) : Option F :=
  if kzg.degree + 1 ≤ kzg.crs_g1.length ∧ kzg.degree + 1 ≤ poly.length then
    some (∑ i ∈ Finset.range (kzg.degree + 1), kzg.crs_g1.getD i 0 * poly.getD i 0)
  else none

/-- `KZG::open` (named `openPoly` because `open` is reserved in Lean):
evaluate the polynomial, divide `poly(X) - value` by `X - point`, and commit
the quotient against `crs_g1`.  `poly[0]`, the `div(...).unwrap()` and the
CRS indexing can all panic. -/
def KZG.openPoly (kzg : KZG F) (poly : List F) (point : F) : Option F :=
  match poly with
  | [] => none
  | p0 :: rest =>
    let value := evaluate (p0 :: rest) point
    let denominator : List F := [-point, 1]
    let numerator := (p0 - value) :: rest
    match unwrapResult (div numerator denominator) with
    | some quotient =>
      if quotient.length ≤ kzg.crs_g1.length then
        some (∑ i ∈ Finset.range quotient.length, kzg.crs_g1.getD i 0 * quotient.getD i 0)
      else none
    | none => none

/-- `KZG::verify`: `e(π, g2_tau - g2·z) = e(C - g1·v, g2)`. -/
def KZG.verify (kzg : KZG F) (point value commitment pi : F) : Bool :=
  pairing pi (kzg.g2_tau - kzg.g2 * point) == pairing (commitment - kzg.g1 * value) kzg.g2

/-- The common reference string of `asvc.rs`. -/
structure CRS (F : Type) where
  g1 : List F
  g2 : List F
deriving DecidableEq

/-- Per-index update-key commitments of `asvc.rs` (reserved for the
unimplemented update protocol). -/
structure UpdateKey (F : Type) where
  ai_commitment : List F
  ui_commitment : List F
deriving DecidableEq

/-- The proving key of `asvc.rs`: CRS, update key and the per-index
Lagrange-basis commitments. -/
structure ProvingKey (F : Type) where
  crs : CRS F
  update_key : UpdateKey F
  li_commitment : List F
deriving DecidableEq

/-- The verification key of `asvc.rs`: CRS and the commitment to the
vanishing polynomial `X^degree - 1`. -/
structure VerificationKey (F : Type) where
  crs : CRS F
  a_commitment : F
deriving DecidableEq

/-- The ASVC scheme state of `asvc.rs`. -/
structure ASVC (F : Type) where
  degree : Nat
  update_key : UpdateKey F
  proving_key : ProvingKey F
  verification_key : VerificationKey F
deriving DecidableEq

/-- The body of the per-index loop of `ASVC::key_gen`: builds `a_i`, `l_i`,
`u_i` and their `crs_g1` commitments.  `get_omega` is called on a zero
vector of length `degree` (twice in the Rust, with the same result), the two
divisions are unwrapped, the arkworks `.div(F::from(degree))` panics when
`degree` maps to zero in the field, and `ui_numerator[0]` panics on an empty
list.  The Rust commitment loops are `iter().zip(...)` folds, which truncate
to the shorter list. -/
def keyGenRow (cfg : FieldConfig F) (degree : Nat) (crs_g1 ai_numerator : List F)
    (i : Nat) : Option (F × F × F) := do
  let omega ← get_omega cfg (List.replicate degree (0 : F))
  let ai_denominator : List F := [-(omega ^ i), 1]
  let ai_polynomial ← unwrapResult (div ai_numerator ai_denominator)
  if (degree : F) = 0 then none
  else do
    let omega2 ← get_omega cfg (List.replicate degree (0 : F))
    let li_polynomial := scalar_mul ai_polynomial (omega2 ^ i / (degree : F))
    match li_polynomial with
    | [] => none
    | l0 :: lrest => do
      let ui_polynomial ← unwrapResult (div ((l0 - 1) :: lrest) ai_denominator)
      some ((List.zipWith (fun crs c => crs * c) crs_g1 ai_polynomial).sum,
            (List.zipWith (fun crs c => crs * c) crs_g1 (l0 :: lrest)).sum,
            (List.zipWith (fun crs c => crs * c) crs_g1 ui_polynomial).sum)

/-- `ASVC::key_gen`: build the CRS, commit `A(X) = X^degree - 1` as
`crs_g1[degree] - crs_g1[0]`, run the per-index loop, and assemble the
keys.  `ai_numerator` is the vector `[0,…,0]` with `-1` written at index `0`
and `1` at index `degree`. -/
def key_gen (cfg : FieldConfig F) (g1 g2 : F) (degree : Nat) (secret : F) :
    Option (ASVC F) :=
  let crs_g1 := (List.range (degree + 1)).map (fun i => g1 * secret ^ i)
  let crs_g2 := (List.range (degree + 1)).map (fun i => g2 * secret ^ i)
  let a_commitment := crs_g1.getD degree 0 * 1 + crs_g1.getD 0 0 * (-1)
  let ai_numerator := ((List.replicate (degree + 1) (0 : F)).set 0 (-1)).set degree 1
  match mapOption (keyGenRow cfg degree crs_g1 ai_numerator) (List.range degree) with
  | none => none
  | some rows =>
    some
      { degree := degree,
        update_key :=
          { ai_commitment := rows.map (fun r => r.1),
            ui_commitment := rows.map (fun r => r.2.2) },
        proving_key :=
          { crs := { g1 := crs_g1, g2 := crs_g2 },
            update_key :=
              { ai_commitment := rows.map (fun r => r.1),
                ui_commitment := rows.map (fun r => r.2.2) },
            li_commitment := rows.map (fun r => r.2.1) },
        verification_key :=
          { crs := { g1 := crs_g1, g2 := crs_g2 },
            a_commitment := a_commitment } }

/-- `ASVC::vector_commit`: `assert_eq!(vector.len(), li_commitment.len())`
aborts (`none`) on mismatch, then `Σ_i li_commitment[i] * vector[i]`. -/
def vector_commit (inst : ASVC F) (vector : List F) : Option F :=
  if vector.length = inst.proving_key.li_commitment.length then
    some (∑ i ∈ Finset.range vector.length,
      inst.proving_key.li_commitment.getD i 0 * vector.getD i 0)
  else none

/-- `ASVC::prove_position`: interpolate the vector over the integer points
`0..n`, divide by the denominator the code builds, and commit the quotient.
Note the Rust denominator loop multiplies by `(X - ω^i)` for the loop
counter `i` in `1..indices.len()`, not for `indices[i]`, and `ω` is drawn
from a domain of size `vector.len()`. -/
def prove_position (cfg : FieldConfig F) (inst : ASVC F) (indices : List Nat)
    (vector : List F) : Option F := do
  let points := (List.range vector.length).map (fun i => (i : F))
  let numerator ← unwrapResult (interpolate points vector)
  let omega ← get_omega cfg (List.replicate vector.length (0 : F))
  match indices with
  | [] => none
  | i0 :: _ => do
    let denominator := ((List.range indices.length).drop 1).foldl
      (fun den i => mul den [-(omega ^ i), 1]) [-(omega ^ i0), 1]
    let quotient ← unwrapResult (div numerator denominator)
    if quotient ≠ [] ∧ quotient.length ≤ inst.proving_key.crs.g1.length then
      some (∑ i ∈ Finset.range quotient.length,
        inst.proving_key.crs.g1.getD i 0 * quotient.getD i 0)
    else none

/-- `ASVC::verify_position`: rebuild the denominator (same loop-counter
pattern as `prove_position`, with `ω` drawn from a domain of the subvector
length), commit it against `crs_g2`, interpolate the remainder at the
integer index points, commit it against `crs_g1`, and check
`e(π, [D]₂) = e(C - [R]₁, g2)`. -/
def verify_position (cfg : FieldConfig F) (inst : ASVC F) (commitment : F)
    (indices : List Nat) (subvector : List F) (pi : F) : Option Bool := do
  let omega ← get_omega cfg (List.replicate subvector.length (0 : F))
  match indices with
  | [] => none
  | i0 :: _ => do
    let denominator := ((List.range indices.length).drop 1).foldl
      (fun den i => mul den [-(omega ^ i), 1]) [-(omega ^ i0), 1]
    if denominator.length ≤ inst.verification_key.crs.g2.length ∧
        1 ≤ inst.verification_key.crs.g2.length then do
      let denominator_commitment :=
        ∑ i ∈ Finset.range denominator.length,
          inst.verification_key.crs.g2.getD i 0 * denominator.getD i 0
      let indices_field := indices.map (fun i => (i : F))
      let remainder ← unwrapResult (interpolate indices_field subvector)
      if remainder.length ≤ inst.verification_key.crs.g1.length ∧
          1 ≤ inst.verification_key.crs.g1.length then
        some (pairing pi denominator_commitment ==
          pairing (commitment - ∑ i ∈ Finset.range remainder.length,
              inst.verification_key.crs.g1.getD i 0 * remainder.getD i 0)
            (inst.verification_key.crs.g2.getD 0 0))
      else none
    else none

/-- `ASVC::aggregate_proofs`: assert the lengths match, derive `ω` from a
domain of size `indices.len()`, build `A(X)` with the same loop-counter
pattern as the other denominators (`ω^i` for loop position `i ≥ 1`), take
the formal derivative, and return `Σ_k proofs[k] · A'(ω^{indices[k]})`. -/
def aggregate_proofs (cfg : FieldConfig F) (indices : List Nat) (proofs : List F) :
    Option F := do
  if indices.length = proofs.length then do
    let omega ← get_omega cfg (List.replicate indices.length (0 : F))
    match indices with
    | [] => none
    | i0 :: _ => do
      let a_polynomial := ((List.range indices.length).drop 1).foldl
        (fun a i => mul a [-(omega ^ i), 1]) [-(omega ^ i0), 1]
      let a_derivative := (List.range (a_polynomial.length - 1)).map
        (fun i => a_polynomial.getD (i + 1) 0 * ((i + 1 : Nat) : F))
      some ((List.range indices.length).map
        (fun k => proofs.getD k 0 * evaluate a_derivative (omega ^ indices.getD k 0))).sum
  else none

/-- Stated from the specification, as the comparison target for the claim
about `aggregate_proofs` (not translated from the source): with `ω` a
primitive root of unity for the scheme's degree-sized evaluation domain,
`A(X) = Π_{i ∈ indices} (X - ω^i)` over the aggregated index set and `A'`
its formal derivative, the aggregate is `Σ_k proofs[k] · A'(ω^{indices[k]})`. -/
def aggregate_proofs_spec (omega : F) (indices : List Nat) (proofs : List F) : F :=
  let aPoly := indices.foldl (fun a i => mul a [-(omega ^ i), 1]) [1]
  let aDeriv := (List.range (aPoly.length - 1)).map
    (fun i => aPoly.getD (i + 1) 0 * ((i + 1 : Nat) : F))
  ((List.range indices.length).map
    (fun k => proofs.getD k 0 * evaluate aDeriv (omega ^ indices.getD k 0))).sum

/-- The field with 17 elements, carried by `Fin 17` so that every operation
(including the inverse, realised as `a ^ 15` by Fermat's little theorem)
evaluates inside the kernel; this is the concrete scalar field used to
instantiate theorems on explicit inputs. -/
instance instFieldFin17 : Field (Fin 17) :=
  { (inferInstanceAs (CommRing (Fin 17))) with
    inv := fun a => a ^ 15
    div := fun a b => a * b ^ 15
    div_eq_mul_inv := fun _ _ => rfl
    nnqsmul := _
    qsmul := _
    exists_pair_ne := ⟨0, 1, by decide⟩
    mul_inv_cancel := by decide
    inv_zero := by decide }

/-- Field configuration for `Fin 17`: the group of units has order
`16 = 2^4`, and `3` generates it, so the 2-adicity is `4` with designated
root `3`. -/
def cfg17 : FieldConfig (Fin 17) := ⟨3, 4⟩

/-- The concrete degree-2 ASVC instance over `Fin 17` produced by `key_gen`
with both generators `1` and secret `2`; used to instantiate theorems at a
concrete input. -/
def inst17 : ASVC (Fin 17) :=
  match key_gen cfg17 1 1 2 2 with
  | some inst => inst
  | none =>
    { degree := 0,
      update_key := { ai_commitment := [], ui_commitment := [] },
      proving_key := { crs := { g1 := [], g2 := [] },
                       update_key := { ai_commitment := [], ui_commitment := [] },
                       li_commitment := [] },
      verification_key := { crs := { g1 := [], g2 := [] }, a_commitment := 0 } }

/-- Bridge to Mathlib polynomials: index `i` of the coefficient list is the
degree-`i` coefficient. -/
noncomputable def toPoly : List F → Polynomial F
  | [] => 0
  | a :: l => Polynomial.C a + Polynomial.X * toPoly l

theorem getD_out_of_range {l : List F} {n : Nat} (h : l.length ≤ n) : l.getD n 0 = 0 :=
  List.getD_eq_default l 0 h

theorem getD_map_range (f : Nat → F) (m n : Nat) :
    ((List.range m).map f).getD n 0 = if n < m then f n else 0 := by
  by_cases h : n < m
  · have hl : n < ((List.range m).map f).length := by simpa using h
    rw [List.getD_eq_getElem _ _ hl]
    simp [h]
  · rw [getD_out_of_range (by simpa using Nat.le_of_not_lt h)]
    simp [h]

theorem toPoly_coeff (l : List F) (n : Nat) : (toPoly l).coeff n = l.getD n 0 := by
  induction l generalizing n with
  | nil => simp [toPoly]
  | cons a t ih =>
    cases n with
    | zero => simp [toPoly]
    | succ m => simp [toPoly, Polynomial.coeff_X_mul, ih]

theorem toPoly_nil : toPoly ([] : List F) = 0 := rfl

theorem toPoly_eq_of_getD_eq {a b : List F} (h : ∀ n, a.getD n 0 = b.getD n 0) :
    toPoly a = toPoly b := by
  apply Polynomial.ext
  intro n
  rw [toPoly_coeff, toPoly_coeff]
  exact h n

theorem toPoly_degree_lt (l : List F) : (toPoly l).degree < (l.length : WithBot ℕ) := by
  rcases eq_or_ne (toPoly l) 0 with h | h
  · rw [h, Polynomial.degree_zero]
    exact WithBot.bot_lt_coe _
  · rw [Polynomial.degree_lt_iff_coeff_zero]
    intro m hm
    rw [toPoly_coeff]
    exact getD_out_of_range (by exact_mod_cast hm)

theorem toPoly_replicate_zero (n : Nat) : toPoly (List.replicate n (0 : F)) = 0 := by
  induction n with
  | zero => rfl
  | succ m ih => simp [List.replicate_succ, toPoly, ih]

theorem evaluate_nil (t : F) : evaluate [] t = 0 := by
  simp [evaluate]

theorem evaluate_cons (a : F) (l : List F) (t : F) :
    evaluate (a :: l) t = a + t * evaluate l t := by
  unfold evaluate
  rw [List.length_cons, Finset.sum_range_succ']
  simp only [List.getD_cons_succ, List.getD_cons_zero, pow_zero, mul_one]
  rw [Finset.mul_sum, add_comm]
  congr 1
  exact Finset.sum_congr rfl fun i _ => by ring

theorem evaluate_eq_eval (l : List F) (t : F) : evaluate l t = (toPoly l).eval t := by
  induction l with
  | nil => simp [evaluate_nil, toPoly]
  | cons a b ih => simp [evaluate_cons, toPoly, ih]

theorem toPoly_append (l1 l2 : List F) :
    toPoly (l1 ++ l2) = toPoly l1 + Polynomial.X ^ l1.length * toPoly l2 := by
  induction l1 with
  | nil => simp [toPoly]
  | cons a t ih =>
    have h1 : toPoly ((a :: t) ++ l2) = Polynomial.C a + Polynomial.X * toPoly (t ++ l2) := rfl
    have h2 : toPoly (a :: t) = Polynomial.C a + Polynomial.X * toPoly t := rfl
    rw [h1, ih, h2, List.length_cons]
    ring

theorem toPoly_linear (a : F) : toPoly [a, 1] = Polynomial.X + Polynomial.C a := by
  simp [toPoly]
  ring

theorem popZeros_nil : popZeros ([] : List F) = [] := rfl

theorem popZeros_concat (l : List F) (a : F) :
    popZeros (l ++ [a]) = if a = 0 then popZeros l else l ++ [a] := by
  unfold popZeros
  have h : (l ++ [a]).reverse = a :: l.reverse := by simp
  rw [h, List.dropWhile_cons]
  by_cases ha : a = 0
  · simp [ha]
  · simp [ha]

theorem popZeros_length_le (l : List F) : (popZeros l).length ≤ l.length := by
  have h := (@List.dropWhile_sublist F l.reverse (fun x => decide (x = 0))).length_le
  unfold popZeros
  simpa using h

theorem popZeros_length_lt {l : List F} (h : l.getLast? = some 0) :
    (popZeros l).length < l.length := by
  obtain ⟨l', rfl⟩ := List.getLast?_eq_some_iff.mp h
  rw [popZeros_concat, if_pos rfl]
  simp only [List.length_append, List.length_singleton]
  exact Nat.lt_succ_of_le (popZeros_length_le l')

theorem toPoly_popZeros (l : List F) : toPoly (popZeros l) = toPoly l := by
  induction l using List.reverseRecOn with
  | nil => rfl
  | append_singleton l a ih =>
    rw [popZeros_concat]
    by_cases ha : a = 0
    · rw [if_pos ha, ih, ha, toPoly_append]
      simp [toPoly]
    · rw [if_neg ha]

theorem getLast?_getD {l : List F} {a : F} (h : l.getLast? = some a) :
    l.getD (l.length - 1) 0 = a := by
  obtain ⟨l', rfl⟩ := List.getLast?_eq_some_iff.mp h
  have hlen : (l' ++ [a]).length - 1 = l'.length := by simp
  rw [hlen, List.getD_append_right l' [a] 0 _ le_rfl]
  simp

theorem remainder_update_getD (rem p2 : List F) (coeff : F) (hle : p2.length ≤ rem.length)
    (n : Nat) :
    (rem.take (rem.length - p2.length) ++
      List.zipWith (fun a b => a - b * coeff) (rem.drop (rem.length - p2.length)) p2).getD n 0 =
      rem.getD n 0 -
        (if rem.length - p2.length ≤ n ∧ n < rem.length then
          p2.getD (n - (rem.length - p2.length)) 0 * coeff else 0) := by
  have htl : (rem.take (rem.length - p2.length)).length = rem.length - p2.length := by
    simp [List.length_take]
  have hzl : (List.zipWith (fun a b => a - b * coeff)
      (rem.drop (rem.length - p2.length)) p2).length = p2.length := by
    rw [List.length_zipWith, List.length_drop]
    omega
  rcases Nat.lt_or_ge n (rem.length - p2.length) with h1 | h1
  · rw [List.getD_append _ _ _ _ (by rw [htl]; omega)]
    have hn : n < rem.length := by omega
    rw [List.getD_eq_getElem _ _ (by rw [htl]; omega), List.getElem_take,
      List.getD_eq_getElem _ _ hn]
    rw [if_neg (by omega)]
    ring
  · rcases Nat.lt_or_ge n rem.length with h2 | h2
    · rw [List.getD_append_right _ _ _ _ (by rw [htl]; omega), htl]
      have hz : n - (rem.length - p2.length) <
          (List.zipWith (fun a b => a - b * coeff)
            (rem.drop (rem.length - p2.length)) p2).length := by rw [hzl]; omega
      have hnp : n - (rem.length - p2.length) < p2.length := by omega
      rw [List.getD_eq_getElem _ _ hz, List.getElem_zipWith, if_pos ⟨h1, h2⟩,
        List.getD_eq_getElem rem 0 h2, List.getD_eq_getElem p2 0 hnp]
      congr 1
      rw [List.getElem_drop]
      congr 1
      omega
    · rw [getD_out_of_range (by rw [List.length_append, htl, hzl]; omega),
        getD_out_of_range h2, if_neg (by omega)]
      ring

theorem toPoly_remainder_update (rem p2 : List F) (coeff : F)
    (hle : p2.length ≤ rem.length) :
    toPoly (rem.take (rem.length - p2.length) ++
      List.zipWith (fun a b => a - b * coeff) (rem.drop (rem.length - p2.length)) p2) =
      toPoly rem -
        Polynomial.C coeff * (toPoly p2 * Polynomial.X ^ (rem.length - p2.length)) := by
  apply Polynomial.ext
  intro n
  rw [toPoly_coeff, remainder_update_getD rem p2 coeff hle n, Polynomial.coeff_sub,
    toPoly_coeff, Polynomial.coeff_C_mul, Polynomial.coeff_mul_X_pow']
  rcases Nat.lt_or_ge n (rem.length - p2.length) with h1 | h1
  · rw [if_neg (by omega), if_neg (by omega)]
    ring
  · rcases Nat.lt_or_ge n rem.length with h2 | h2
    · rw [if_pos ⟨h1, h2⟩, if_pos h1, toPoly_coeff]
      ring
    · rw [if_neg (by omega), if_pos h1, toPoly_coeff,
        @getD_out_of_range F _ _ p2 _ (by omega)]
      ring


theorem toPoly_set_of_getD_zero (q : List F) (pos : Nat) (c : F) (hpos : pos < q.length)
    (h0 : q.getD pos 0 = 0) :
    toPoly (q.set pos c) = toPoly q + Polynomial.C c * Polynomial.X ^ pos := by
  apply Polynomial.ext
  intro n
  rw [toPoly_coeff, Polynomial.coeff_add, toPoly_coeff, Polynomial.coeff_C_mul,
    Polynomial.coeff_X_pow]
  by_cases hn2 : n < q.length
  · rw [List.getD_eq_getElem _ _ (by simpa using hn2), List.getElem_set,
      List.getD_eq_getElem _ _ hn2]
    by_cases hn : pos = n
    · subst hn
      rw [if_pos rfl, if_pos rfl]
      rw [List.getD_eq_getElem _ _ hn2] at h0
      rw [h0]
      ring
    · rw [if_neg hn, if_neg (fun hh => hn hh.symm)]
      ring
  · rw [getD_out_of_range (by simpa using Nat.le_of_not_lt hn2),
      getD_out_of_range (Nat.le_of_not_lt hn2)]
    rw [if_neg (by omega)]
    ring

theorem mul_getD (p1 p2 : List F) (n : Nat) :
    (mul p1 p2).getD n 0 =
      ∑ i ∈ Finset.range (n + 1), p1.getD i 0 * p2.getD (n - i) 0 := by
  unfold mul
  rw [getD_map_range]
  by_cases h : n < p1.length + p2.length - 1
  · rw [if_pos h]
  · rw [if_neg h]
    symm
    apply Finset.sum_eq_zero
    intro i hi
    rw [Finset.mem_range] at hi
    rcases Nat.lt_or_ge i p1.length with h1 | h1
    · rw [@getD_out_of_range F _ _ p2 _ (by omega), mul_zero]
    · rw [getD_out_of_range h1, zero_mul]

theorem toPoly_mul (p1 p2 : List F) : toPoly (mul p1 p2) = toPoly p1 * toPoly p2 := by
  apply Polynomial.ext
  intro n
  rw [toPoly_coeff, mul_getD, Polynomial.coeff_mul,
    Finset.Nat.sum_antidiagonal_eq_sum_range_succ_mk]
  exact Finset.sum_congr rfl fun i _ => by rw [toPoly_coeff, toPoly_coeff]

theorem add_getD (p1 p2 : List F) (n : Nat) :
    (add p1 p2).getD n 0 = p1.getD n 0 + p2.getD n 0 := by
  unfold add
  rw [getD_map_range]
  by_cases h : n < max p1.length p2.length
  · rw [if_pos h]
  · rw [if_neg h, @getD_out_of_range F _ _ p1 _ (by omega),
      @getD_out_of_range F _ _ p2 _ (by omega)]
    simp

theorem toPoly_add (p1 p2 : List F) : toPoly (add p1 p2) = toPoly p1 + toPoly p2 := by
  apply Polynomial.ext
  intro n
  rw [toPoly_coeff, add_getD, Polynomial.coeff_add, toPoly_coeff, toPoly_coeff]

theorem toPoly_map_mul2 (l : List F) (a b : F) :
    toPoly (l.map (fun x => x * a * b)) = toPoly l * Polynomial.C (a * b) := by
  apply Polynomial.ext
  intro n
  rw [toPoly_coeff, Polynomial.coeff_mul_C, toPoly_coeff]
  by_cases h : n < l.length
  · rw [List.getD_eq_getElem _ _ (by simpa using h), List.getElem_map,
      List.getD_eq_getElem _ _ h]
    ring
  · rw [getD_out_of_range (by simpa using Nat.le_of_not_lt h),
      getD_out_of_range (Nat.le_of_not_lt h), zero_mul]

theorem getD_replicate_zero (m n : Nat) : (List.replicate m (0 : F)).getD n 0 = 0 := by
  by_cases h : n < m
  · rw [List.getD_eq_getElem _ _ (by simpa using h), List.getElem_replicate]
  · exact getD_out_of_range (by simpa using Nat.le_of_not_lt h)

theorem getD_set_ne {q : List F} {pos i : Nat} (c : F) (h : pos ≠ i) :
    (q.set pos c).getD i 0 = q.getD i 0 := by
  by_cases hi : i < q.length
  · rw [List.getD_eq_getElem _ _ (by simpa using hi), List.getElem_set, if_neg h,
      List.getD_eq_getElem _ _ hi]
  · rw [getD_out_of_range (by simpa using Nat.le_of_not_lt hi),
      getD_out_of_range (Nat.le_of_not_lt hi)]

theorem getLast?_eq_of_ne_nil {l : List F} (hne : l ≠ []) :
    l.getLast? = some (l.getD (l.length - 1) 0) := by
  cases hx : l.getLast? with
  | none => exact absurd (List.getLast?_eq_none_iff.mp hx) hne
  | some a => rw [getLast?_getD hx]

theorem remainder_update_length (rem p2 : List F) (coeff : F)
    (hle : p2.length ≤ rem.length) :
    (rem.take (rem.length - p2.length) ++
      List.zipWith (fun a b => a - b * coeff)
        (rem.drop (rem.length - p2.length)) p2).length = rem.length := by
  rw [List.length_append, List.length_take, List.length_zipWith, List.length_drop]
  omega

theorem divLoop_spec (p2 : List F) (plast : F) (hpl : p2.getLast? = some plast)
    (h0 : plast ≠ 0) :
    ∀ (fuel : Nat) (quotient remainder : List F), remainder.length ≤ fuel →
      remainder.length < quotient.length + p2.length →
      (∀ i, i + p2.length ≤ remainder.length → quotient.getD i 0 = 0) →
      ∃ q r, divLoop p2 fuel quotient remainder = some (q, r) ∧
        r.length < p2.length ∧ q.length = quotient.length ∧
        toPoly q * toPoly p2 + toPoly r = toPoly quotient * toPoly p2 + toPoly remainder := by
  have hp2ne : p2 ≠ [] := by
    intro h
    rw [h] at hpl
    simp at hpl
  have hp2pos : 0 < p2.length := List.length_pos.mpr hp2ne
  intro fuel
  induction fuel with
  | zero =>
    intro quotient remainder hfuel hqlen hinv
    have hr : remainder.length = 0 := Nat.le_zero.mp hfuel
    have hlt : remainder.length < p2.length := by omega
    exact ⟨quotient, remainder, by simp [divLoop, hlt], hlt, rfl, rfl⟩
  | succ fuel ih =>
    intro quotient remainder hfuel hqlen hinv
    by_cases hlt : remainder.length < p2.length
    · exact ⟨quotient, remainder, by simp [divLoop, hlt], hlt, rfl, rfl⟩
    · push_neg at hlt
      have hremne : remainder ≠ [] := by
        intro h
        rw [h] at hlt
        simp only [List.length_nil] at hlt
        omega
      obtain ⟨rlast, hrl⟩ : ∃ a, remainder.getLast? = some a := by
        cases hx : remainder.getLast? with
        | none => exact absurd (List.getLast?_eq_none_iff.mp hx) hremne
        | some a => exact ⟨a, rfl⟩
      have hstep : divLoop p2 (fuel + 1) quotient remainder =
          divLoop p2 fuel (quotient.set (remainder.length - p2.length) (rlast / plast))
            (popZeros (remainder.take (remainder.length - p2.length) ++
              List.zipWith (fun a b => a - b * (rlast / plast))
                (remainder.drop (remainder.length - p2.length)) p2)) := by
        rw [divLoop, if_neg (not_lt.mpr hlt), hrl, hpl]
        simp only [if_neg h0]
      set pos := remainder.length - p2.length with hposdef
      set coeff := rlast / plast with hcoeffdef
      set rem' := remainder.take pos ++
        List.zipWith (fun a b => a - b * coeff) (remainder.drop pos) p2 with hremdef
      have hrem'len : rem'.length = remainder.length :=
        remainder_update_length remainder p2 coeff hlt
      have hrem'ne : rem' ≠ [] := by
        intro h
        rw [h] at hrem'len
        simp at hrem'len
        omega
      have hrem'last : rem'.getLast? = some 0 := by
        rw [getLast?_eq_of_ne_nil hrem'ne]
        congr 1
        rw [hrem'len, remainder_update_getD remainder p2 coeff hlt]
        rw [if_pos ⟨by omega, by omega⟩]
        have h1 : remainder.getD (remainder.length - 1) 0 = rlast := getLast?_getD hrl
        have h2 : remainder.length - 1 - pos = p2.length - 1 := by omega
        have h3 : p2.getD (p2.length - 1) 0 = plast := getLast?_getD hpl
        rw [h1, h2, h3, hcoeffdef, mul_comm, div_mul_cancel₀ rlast h0, sub_self]
      have hpoplen : (popZeros rem').length < remainder.length := by
        rw [← hrem'len]
        exact popZeros_length_lt hrem'last
      have hq0 : quotient.getD pos 0 = 0 := hinv pos (by omega)
      have hposq : pos < quotient.length := by omega
      obtain ⟨q, r, hloop, hrlen, hqlen', hid⟩ :=
        ih (quotient.set pos coeff) (popZeros rem')
          (Nat.lt_succ_iff.mp (lt_of_lt_of_le hpoplen hfuel))
          (by rw [List.length_set]; omega)
          (by
            intro i hi
            have : i ≠ pos := by omega
            rw [getD_set_ne coeff (fun hh => this hh.symm)]
            exact hinv i (by omega))
      refine ⟨q, r, hstep.trans hloop, hrlen, by rw [hqlen', List.length_set], ?_⟩
      rw [hid, toPoly_set_of_getD_zero quotient pos coeff hposq hq0, toPoly_popZeros,
        hremdef, toPoly_remainder_update remainder p2 coeff hlt]
      ring

theorem div_spec_exact (p1 p2 : List F) (plast : F) (hpl : p2.getLast? = some plast)
    (h0 : plast ≠ 0) (hlen : p2.length ≤ p1.length) :
    ∃ q r, div p1 p2 = some (Except.ok q) ∧ r.length < p2.length ∧
      q.length = p1.length - p2.length + 1 ∧
      toPoly q * toPoly p2 + toPoly r = toPoly p1 := by
  have hbad : ¬(p2.isEmpty ∨ ∀ x ∈ p2, x = 0) := by
    rintro (h | h)
    · rw [List.isEmpty_iff.mp h] at hpl
      simp at hpl
    · exact h0 (h plast (List.mem_of_mem_getLast? hpl))
  obtain ⟨q, r, hloop, hrlen, hqlen, hid⟩ :=
    divLoop_spec p2 plast hpl h0 p1.length (List.replicate (p1.length - p2.length + 1) 0) p1
      le_rfl (by rw [List.length_replicate]; omega) (fun i _ => getD_replicate_zero _ _)
  refine ⟨q, r, ?_, hrlen, by rw [hqlen, List.length_replicate], ?_⟩
  · unfold div
    rw [if_neg hbad, if_neg (not_lt.mpr hlen), hloop]
  · rw [toPoly_replicate_zero, zero_mul, zero_add] at hid
    exact hid

theorem toPoly_linear_divisor (z : F) :
    toPoly [-z, 1] = Polynomial.X - Polynomial.C z := by
  rw [toPoly_linear]
  rw [map_neg]
  ring

theorem div_linear_exact (num : List F) (z : F) (hz : evaluate num z = 0) :
    ∃ q, div num [-z, 1] = some (Except.ok q) ∧
      q.length = max 1 (num.length - 1) ∧
      ∀ t : F, evaluate q t * (t - z) = evaluate num t := by
  by_cases hshort : num.length < 2
  · have hdiv : div num [-z, 1] = some (Except.ok [0]) := by
      unfold div
      rw [if_neg ?side, if_pos (by simpa using hshort)]
      case side =>
        rintro (h | h)
        · simp at h
        · exact one_ne_zero (h 1 (by simp))
    refine ⟨[0], hdiv, by simp; omega, ?_⟩
    intro t
    have hzero : evaluate [(0 : F)] t = 0 := by
      rw [evaluate_cons, evaluate_nil]
      ring
    rcases num with _ | ⟨c, rest⟩
    · rw [hzero, evaluate_nil, zero_mul]
    · have hrest : rest = [] := by
        rcases rest with _ | ⟨d, tl⟩
        · rfl
        · simp at hshort
          omega
      subst hrest
      rw [evaluate_cons, evaluate_nil, mul_zero, add_zero] at hz
      subst hz
      rw [hzero, zero_mul]
  · push_neg at hshort
    obtain ⟨q, r, hdiv, hrlen, hqlen, hid⟩ :=
      div_spec_exact num [-z, 1] 1 (by simp) one_ne_zero (by simpa using hshort)
    refine ⟨q, hdiv, by simp only [List.length_cons, List.length_nil] at hqlen ⊢; omega, ?_⟩
    have hr0 : toPoly r = Polynomial.C (r.getD 0 0) := by
      rcases r with _ | ⟨a, tl⟩
      · simp [toPoly]
      · have htl : tl = [] := by
          rcases tl with _ | ⟨b, tl2⟩
          · rfl
          · simp at hrlen
            omega
        subst htl
        have h1 : toPoly [a] = Polynomial.C a + Polynomial.X * toPoly ([] : List F) := rfl
        rw [h1, toPoly_nil, mul_zero, add_zero]
        rfl
    rw [toPoly_linear_divisor] at hid
    have hevalz := congrArg (Polynomial.eval z) hid
    simp only [Polynomial.eval_add, Polynomial.eval_mul, Polynomial.eval_sub,
      Polynomial.eval_X, Polynomial.eval_C, sub_self, mul_zero, zero_add] at hevalz
    rw [← evaluate_eq_eval num z, hz] at hevalz
    rw [hr0, Polynomial.eval_C] at hevalz
    rw [hr0, hevalz, map_zero, add_zero] at hid
    intro t
    rw [evaluate_eq_eval, evaluate_eq_eval, ← hid]
    simp [Polynomial.eval_mul]

theorem div_error_iff (p1 p2 : List F) :
    div p1 p2 = some (Except.error PolyErr.divisionByZero) ↔
      (p2.isEmpty ∨ ∀ x ∈ p2, x = 0) := by
  constructor
  · intro h
    by_contra hbad
    unfold div at h
    rw [if_neg hbad] at h
    by_cases hlen : p1.length < p2.length
    · rw [if_pos hlen] at h
      simp at h
    · rw [if_neg hlen] at h
      cases hdl : divLoop p2 p1.length (List.replicate (p1.length - p2.length + 1) 0) p1 with
      | none =>
        rw [hdl] at h
        simp at h
      | some qr =>
        obtain ⟨q, r⟩ := qr
        rw [hdl] at h
        simp at h
  · intro h
    unfold div
    rw [if_pos h]

theorem div_panic (p1 p2 : List F) (hbad : ¬(p2.isEmpty ∨ ∀ x ∈ p2, x = 0))
    (hlen : p2.length ≤ p1.length) (hlast : p2.getLast? = some 0) :
    div p1 p2 = none := by
  unfold div
  rw [if_neg hbad, if_neg (not_lt.mpr hlen)]
  have hp2ne : p2 ≠ [] := by
    intro h
    rw [h] at hlast
    simp at hlast
  have hp2pos : 0 < p2.length := List.length_pos.mpr hp2ne
  have hremne : p1 ≠ [] := by
    intro h
    rw [h] at hlen
    simp only [List.length_nil] at hlen
    omega
  obtain ⟨rl, hrl⟩ : ∃ a, p1.getLast? = some a := by
    cases hx : p1.getLast? with
    | none => exact absurd (List.getLast?_eq_none_iff.mp hx) hremne
    | some a => exact ⟨a, rfl⟩
  obtain ⟨f, hf⟩ : ∃ f, p1.length = f + 1 := ⟨p1.length - 1, by omega⟩
  rw [hf, divLoop, if_neg (by omega), hrl, hlast]
  dsimp only
  rw [if_pos rfl]

theorem foldOption_of_none {α β : Type} (f : β → α → Option β) (a : α)
    (hnone : ∀ b', f b' a = none) :
    ∀ (l : List α) (b : β), a ∈ l → foldOption f b l = none := by
  intro l
  induction l with
  | nil =>
    intro b ha
    simp at ha
  | cons x xs ih =>
    intro b ha
    show (match f b x with
      | none => none
      | some b' => foldOption f b' xs) = none
    rcases List.mem_cons.mp ha with rfl | hmem
    · rw [hnone b]
    · cases hx : f b x with
      | none => rfl
      | some b' => exact ih b' hmem

theorem foldOption_eq_foldl {α β : Type} (f : β → α → Option β) (g : β → α → β) :
    ∀ (l : List α) (b : β), (∀ b' a, a ∈ l → f b' a = some (g b' a)) →
      foldOption f b l = some (l.foldl g b) := by
  intro l
  induction l with
  | nil =>
    intro b _
    rfl
  | cons x xs ih =>
    intro b h
    show (match f b x with
      | none => none
      | some b' => foldOption f b' xs) = some ((x :: xs).foldl g b)
    rw [h b x (List.mem_cons_self x xs), List.foldl_cons]
    exact ih (g b x) (fun b' a ha => h b' a (List.mem_cons_of_mem x ha))

theorem mapOption_length {α β : Type} (f : α → Option β) :
    ∀ (l : List α) (bs : List β), mapOption f l = some bs → bs.length = l.length := by
  intro l
  induction l with
  | nil =>
    intro bs h
    have h' : some ([] : List β) = some bs := h
    cases h'
    rfl
  | cons x xs ih =>
    intro bs h
    cases hx : f x with
    | none =>
      rw [show mapOption f (x :: xs) = (match f x, mapOption f xs with
        | some b, some bs => some (b :: bs)
        | _, _ => none) from rfl, hx] at h
      cases hmo : mapOption f xs <;> rw [hmo] at h <;> cases h
    | some b =>
      rw [show mapOption f (x :: xs) = (match f x, mapOption f xs with
        | some b, some bs => some (b :: bs)
        | _, _ => none) from rfl, hx] at h
      cases hmo : mapOption f xs with
      | none =>
        rw [hmo] at h
        cases h
      | some bs' =>
        rw [hmo] at h
        cases h
        simp [ih bs' hmo]

theorem mul_length (p1 p2 : List F) : (mul p1 p2).length = p1.length + p2.length - 1 := by
  unfold mul
  rw [List.length_map, List.length_range]

theorem denominator_foldl (points : List F) (i : Nat) :
    ∀ (l : List Nat) (d : F),
      l.foldl (fun den j => if i = j then den
        else den * (points.getD i 0 - points.getD j 0)) d =
        d * ((l.filter (fun j => !(i == j))).map
          (fun j => points.getD i 0 - points.getD j 0)).prod := by
  intro l
  induction l with
  | nil =>
    intro d
    simp
  | cons x xs ih =>
    intro d
    rw [List.foldl_cons, List.filter_cons]
    by_cases hx : i = x
    · rw [if_pos hx, ih, if_neg (by simp [hx])]
    · rw [if_neg hx, ih, if_pos (by simp [hx]), List.map_cons, List.prod_cons]
      ring

theorem numerator_foldl (points : List F) (i : Nat) :
    ∀ (l : List Nat) (acc : List F),
      toPoly (l.foldl (fun num j => if i = j then num
        else mul num [-(points.getD j 0), 1]) acc) =
        toPoly acc * ((l.filter (fun j => !(i == j))).map
          (fun j => Polynomial.X - Polynomial.C (points.getD j 0))).prod := by
  intro l
  induction l with
  | nil =>
    intro acc
    simp
  | cons x xs ih =>
    intro acc
    rw [List.foldl_cons, List.filter_cons]
    by_cases hx : i = x
    · rw [if_pos hx, ih, if_neg (by simp [hx])]
    · rw [if_neg hx, ih, if_pos (by simp [hx]), List.map_cons, List.prod_cons,
        toPoly_mul, toPoly_linear_divisor]
      ring

theorem numerator_foldl_length (points : List F) (i : Nat) :
    ∀ (l : List Nat) (acc : List F),
      (l.foldl (fun num j => if i = j then num
        else mul num [-(points.getD j 0), 1]) acc).length =
        acc.length + (l.filter (fun j => !(i == j))).length := by
  intro l
  induction l with
  | nil =>
    intro acc
    simp
  | cons x xs ih =>
    intro acc
    rw [List.foldl_cons, List.filter_cons]
    by_cases hx : i = x
    · rw [if_pos hx, ih, if_neg (by simp [hx])]
    · rw [if_neg hx, ih, if_pos (by simp [hx]), mul_length, List.length_cons]
      simp only [List.length_cons, List.length_nil]
      omega

theorem toPoly_foldl_add (term : Nat → List F) :
    ∀ (l : List Nat) (acc : List F),
      toPoly (l.foldl (fun res i => add res (term i)) acc) =
        toPoly acc + (l.map (fun i => toPoly (term i))).sum := by
  intro l
  induction l with
  | nil =>
    intro acc
    simp
  | cons x xs ih =>
    intro acc
    rw [List.foldl_cons, ih, toPoly_add, List.map_cons, List.sum_cons]
    ring

theorem length_filter_ne {l : List Nat} {i : Nat} (hnd : l.Nodup) (hi : i ∈ l) :
    (l.filter (fun j => !(i == j))).length = l.length - 1 := by
  induction l with
  | nil => simp at hi
  | cons x xs ih =>
    rw [List.filter_cons]
    rcases List.mem_cons.mp hi with rfl | hmem
    · rw [if_neg (by simp)]
      have hnotmem : i ∉ xs := (List.nodup_cons.mp hnd).1
      have hself : xs.filter (fun j => !(i == j)) = xs := by
        apply List.filter_eq_self.mpr
        intro a ha
        simp only [Bool.not_eq_eq_eq_not, Bool.not_true, beq_eq_false_iff_ne]
        intro h
        exact hnotmem (h ▸ ha)
      rw [hself]
      simp
    · have hne : i ≠ x := fun h => (List.nodup_cons.mp hnd).1 (h ▸ hmem)
      rw [if_pos (by simp [hne]), List.length_cons,
        ih (List.nodup_cons.mp hnd).2 hmem, List.length_cons]
      have hpos : 0 < xs.length := List.length_pos.mpr (fun h => by
        rw [h] at hmem
        simp at hmem)
      omega

theorem interpolate_ok (points values : List F) (hlen : points.length = values.length)
    (hdist : ∀ i j, i < points.length → j < points.length → i ≠ j →
      points.getD i 0 ≠ points.getD j 0) :
    ∃ r, interpolate points values = some (Except.ok r) ∧
      toPoly r = ((List.range points.length).map (fun i =>
        Polynomial.C (values.getD i 0 *
          (((List.range points.length).filter (fun j => !(i == j))).map
            (fun j => points.getD i 0 - points.getD j 0)).prod⁻¹) *
        (((List.range points.length).filter (fun j => !(i == j))).map
          (fun j => Polynomial.X - Polynomial.C (points.getD j 0))).prod)).sum := by
  have hden : ∀ i ∈ List.range points.length,
      (List.range points.length).foldl
        (fun den j => if i = j then den
          else den * (points.getD i 0 - points.getD j 0)) 1 =
        (((List.range points.length).filter (fun j => !(i == j))).map
          (fun j => points.getD i 0 - points.getD j 0)).prod := by
    intro i _
    rw [denominator_foldl, one_mul]
  have hdnz : ∀ i ∈ List.range points.length,
      (((List.range points.length).filter (fun j => !(i == j))).map
        (fun j => points.getD i 0 - points.getD j 0)).prod ≠ 0 := by
    intro i hi
    rw [List.mem_range] at hi
    intro hzero
    rw [List.prod_eq_zero_iff] at hzero
    obtain ⟨j, hj, hjz⟩ := List.mem_map.mp hzero
    have hjr := List.mem_filter.mp hj
    have hjlt := List.mem_range.mp hjr.1
    have hne : i ≠ j := by
      intro h
      rw [h] at hjr
      simp at hjr
    exact hdist i j hi hjlt hne (by
      have := hjz.symm
      rwa [sub_eq_zero] at hjz)
  set step := fun (result : List F) (i : Nat) =>
    let numerator := (List.range points.length).foldl
      (fun num j => if i = j then num else mul num [-(points.getD j 0), 1]) [1]
    let denominator := (List.range points.length).foldl
      (fun den j => if i = j then den else den * (points.getD i 0 - points.getD j 0)) 1
    if denominator = 0 then none
    else some (add result (numerator.map
      (fun x => x * values.getD i 0 * denominator⁻¹))) with hstepdef
  set g := fun (result : List F) (i : Nat) =>
    add result (((List.range points.length).foldl
      (fun num j => if i = j then num else mul num [-(points.getD j 0), 1]) [1]).map
      (fun x => x * values.getD i 0 *
        ((List.range points.length).foldl
          (fun den j => if i = j then den
            else den * (points.getD i 0 - points.getD j 0)) 1)⁻¹)) with hgdef
  have hfold : foldOption step (List.replicate points.length 0)
      (List.range points.length) =
      some ((List.range points.length).foldl g (List.replicate points.length 0)) := by
    apply foldOption_eq_foldl
    intro b' a ha
    rw [hstepdef]
    simp only
    rw [if_neg (by rw [hden a ha]; exact hdnz a ha)]
  have hinterp : interpolate points values =
      some (Except.ok ((List.range points.length).foldl g
        (List.replicate points.length 0))) := by
    unfold interpolate
    rw [if_neg (by omega), hfold]
    rfl
  refine ⟨_, hinterp, ?_⟩
  rw [toPoly_foldl_add (fun i =>
    ((List.range points.length).foldl
      (fun num j => if i = j then num else mul num [-(points.getD j 0), 1]) [1]).map
      (fun x => x * values.getD i 0 *
        ((List.range points.length).foldl
          (fun den j => if i = j then den
            else den * (points.getD i 0 - points.getD j 0)) 1)⁻¹))]
  rw [toPoly_replicate_zero, zero_add]
  congr 1
  apply List.map_congr_left
  intro i hi
  rw [toPoly_map_mul2, numerator_foldl, hden i hi]
  have h1 : toPoly [(1 : F)] = 1 := by
    have : toPoly [(1 : F)] = Polynomial.C 1 + Polynomial.X * toPoly ([] : List F) := rfl
    rw [this, toPoly_nil, mul_zero, add_zero, map_one]
  rw [h1, one_mul]
  ring

theorem head?_dropWhile {α : Type} (p : α → Bool) :
    ∀ (xs : List α) (a : α), (xs.dropWhile p).head? = some a → p a = false := by
  intro xs
  induction xs with
  | nil =>
    intro a h
    simp at h
  | cons x t ih =>
    intro a h
    rw [List.dropWhile_cons] at h
    by_cases hx : p x
    · rw [if_pos hx] at h
      exact ih a h
    · rw [if_neg hx] at h
      simp only [List.head?_cons, Option.some.injEq] at h
      rw [← h]
      exact Bool.not_eq_true _ ▸ (by simpa using hx)

theorem popZeros_getLast_ne_zero (l : List F) (c : F)
    (h : (popZeros l).getLast? = some c) : c ≠ 0 := by
  unfold popZeros at h
  rw [List.getLast?_reverse] at h
  have := head?_dropWhile (fun x => decide (x = 0)) l.reverse c h
  simpa using this

theorem trimmed_toPoly_inj {a b : List F}
    (ha : ∀ c, a.getLast? = some c → c ≠ 0) (hb : ∀ c, b.getLast? = some c → c ≠ 0)
    (h : toPoly a = toPoly b) : a = b := by
  have hgd : ∀ n, a.getD n 0 = b.getD n 0 := fun n => by
    rw [← toPoly_coeff, ← toPoly_coeff, h]
  have hlen : a.length = b.length := by
    by_contra hne
    rcases Nat.lt_or_ge a.length b.length with hl | hl
    · have hbne : b ≠ [] := by
        intro hb0
        rw [hb0] at hl
        simp at hl
      have hlast := getLast?_eq_of_ne_nil hbne
      apply hb _ hlast
      rw [← hgd (b.length - 1)]
      exact getD_out_of_range (by omega)
    · have hl2 : b.length < a.length := by omega
      have hane : a ≠ [] := by
        intro ha0
        rw [ha0] at hl2
        simp at hl2
      have hlast := getLast?_eq_of_ne_nil hane
      apply ha _ hlast
      rw [hgd (a.length - 1)]
      exact getD_out_of_range (by omega)
  apply List.ext_getElem hlen
  intro i h1 h2
  rw [← List.getD_eq_getElem a 0 h1, ← List.getD_eq_getElem b 0 h2]
  exact hgd i

theorem popZeros_congr {a b : List F} (h : toPoly a = toPoly b) :
    popZeros a = popZeros b := by
  apply trimmed_toPoly_inj (popZeros_getLast_ne_zero a) (popZeros_getLast_ne_zero b)
  rw [toPoly_popZeros, toPoly_popZeros, h]

theorem degree_linear_prod_le (xs : List F) :
    ((xs.map (fun a => Polynomial.X - Polynomial.C a)).prod).degree ≤
      (xs.length : WithBot ℕ) := by
  induction xs with
  | nil =>
    simp [Polynomial.degree_one_le]
  | cons x t ih =>
    rw [List.map_cons, List.prod_cons, List.length_cons]
    refine le_trans (Polynomial.degree_mul_le _ _) ?_
    rw [Polynomial.degree_X_sub_C]
    have : ((t.length + 1 : ℕ) : WithBot ℕ) = 1 + (t.length : WithBot ℕ) := by
      push_cast
      ring
    rw [this]
    exact add_le_add le_rfl ih

theorem degree_list_sum_le_of_forall {D : WithBot ℕ} (l : List (Polynomial F))
    (h : ∀ p ∈ l, p.degree ≤ D) : (l.sum).degree ≤ D := by
  induction l with
  | nil =>
    simp only [List.sum_nil, Polynomial.degree_zero]
    exact bot_le
  | cons p t ih =>
    rw [List.sum_cons]
    refine le_trans (Polynomial.degree_add_le _ _) ?_
    exact max_le (h p (List.mem_cons_self p t))
      (ih fun q hq => h q (List.mem_cons_of_mem p hq))

theorem eval_list_sum (l : List (Polynomial F)) (x : F) :
    Polynomial.eval x l.sum = (l.map (Polynomial.eval x)).sum := by
  induction l with
  | nil => simp
  | cons p t ih => simp [ih]

theorem pairwise_getD_ne {points : List F} (hdist : points.Pairwise (fun a b => a ≠ b)) :
    ∀ i j, i < points.length → j < points.length → i ≠ j →
      points.getD i 0 ≠ points.getD j 0 := by
  intro i j hi hj hij
  rw [List.getD_eq_getElem _ _ hi, List.getD_eq_getElem _ _ hj]
  rcases Nat.lt_or_ge i j with h | h
  · exact (List.pairwise_iff_getElem.mp hdist) i j hi hj h
  · exact Ne.symm ((List.pairwise_iff_getElem.mp hdist) j i hj hi (by omega))

theorem lagrange_denominator_ne_zero {points : List F}
    (hdist : points.Pairwise (fun a b => a ≠ b)) {i : Nat} (hi : i < points.length) :
    (((List.range points.length).filter (fun j => !(i == j))).map
      (fun j => points.getD i 0 - points.getD j 0)).prod ≠ 0 := by
  intro hzero
  rw [List.prod_eq_zero_iff] at hzero
  obtain ⟨j, hj, hjz⟩ := List.mem_map.mp hzero
  have hjr := List.mem_filter.mp hj
  have hjlt := List.mem_range.mp hjr.1
  have hne : i ≠ j := by
    intro h
    rw [h] at hjr
    simp at hjr
  rw [sub_eq_zero] at hjz
  exact pairwise_getD_ne hdist i j hi hjlt hne hjz

theorem degree_basis_prod_le (points : List F) (i : Nat) (hi : i < points.length) :
    (((List.range points.length).filter (fun j => !(i == j))).map
      (fun j => Polynomial.X - Polynomial.C (points.getD j 0))).prod.degree ≤
      ((points.length - 1 : ℕ) : WithBot ℕ) := by
  have heq : ((List.range points.length).filter (fun j => !(i == j))).map
      (fun j => Polynomial.X - Polynomial.C (points.getD j 0)) =
      (((List.range points.length).filter (fun j => !(i == j))).map
        (fun j => points.getD j 0)).map (fun a => Polynomial.X - Polynomial.C a) := by
    rw [List.map_map]
    exact List.map_congr_left fun j _ => rfl
  rw [heq]
  refine le_trans (degree_linear_prod_le _) ?_
  rw [List.length_map, length_filter_ne (List.nodup_range _) (List.mem_range.mpr hi),
    List.length_range]

theorem list_sum_single {k m : Nat} (hm : m < k) (f : Nat → F)
    (hzero : ∀ i, i < k → i ≠ m → f i = 0) :
    ((List.range k).map f).sum = f m := by
  have hconv : ((List.range k).map f).sum = ∑ i ∈ Finset.range k, f i := rfl
  rw [hconv]
  exact Finset.sum_eq_single m (fun b hb hbm => hzero b (Finset.mem_range.mp hb) hbm)
    (fun hnot => absurd (Finset.mem_range.mpr hm) hnot)

theorem lagrange_sum_eval (points values : List F)
    (hdist : points.Pairwise (fun a b => a ≠ b)) (m : Nat) (hm : m < points.length) :
    Polynomial.eval (points.getD m 0)
      (((List.range points.length).map (fun i =>
        Polynomial.C (values.getD i 0 *
          (((List.range points.length).filter (fun j => !(i == j))).map
            (fun j => points.getD i 0 - points.getD j 0)).prod⁻¹) *
        (((List.range points.length).filter (fun j => !(i == j))).map
          (fun j => Polynomial.X - Polynomial.C (points.getD j 0))).prod)).sum) =
      values.getD m 0 := by
  rw [eval_list_sum, List.map_map]
  rw [list_sum_single hm _ ?zeros]
  case zeros =>
    intro i hik hne
    simp only [Function.comp_apply, Polynomial.eval_mul, Polynomial.eval_C]
    have hprodzero : Polynomial.eval (points.getD m 0)
        ((((List.range points.length).filter (fun j => !(i == j))).map
          (fun j => Polynomial.X - Polynomial.C (points.getD j 0))).prod) = 0 := by
      rw [Polynomial.eval_list_prod, List.map_map]
      apply List.prod_eq_zero
      refine List.mem_map.mpr ⟨m, ?_, ?_⟩
      · exact List.mem_filter.mpr ⟨List.mem_range.mpr hm, by simp [hne]⟩
      · simp
    rw [hprodzero, mul_zero]
  · simp only [Function.comp_apply, Polynomial.eval_mul, Polynomial.eval_C]
    rw [Polynomial.eval_list_prod, List.map_map]
    have heval : ((List.range points.length).filter (fun j => !(m == j))).map
        (Polynomial.eval (points.getD m 0) ∘
          fun j => Polynomial.X - Polynomial.C (points.getD j 0)) =
        ((List.range points.length).filter (fun j => !(m == j))).map
          (fun j => points.getD m 0 - points.getD j 0) := by
      apply List.map_congr_left
      intro j _
      simp
    rw [heval, mul_assoc, inv_mul_cancel₀ (lagrange_denominator_ne_zero hdist hm),
      mul_one]

/-- C7: for every list of pairwise-distinct points and every polynomial `p`
whose degree is below the number of points (its trimmed coefficient list is
no longer than the point list), `interpolate points [evaluate p x for x in
points]` returns `Ok` of a coefficient list that equals `p` coefficient-wise
after trimming trailing zero coefficients. -/
theorem interpolate_roundtrip (points p : List F)
    (hdist : points.Pairwise (fun a b => a ≠ b))
    (hdeg : (popZeros p).length ≤ points.length) :
    (interpolate points (points.map (evaluate p))).map (Except.map popZeros) =
      some (Except.ok (popZeros p)) := by
  obtain ⟨r, hr, htp⟩ := interpolate_ok points (points.map (evaluate p))
    (by rw [List.length_map]) (pairwise_getD_ne hdist)
  have hnodup : points.Nodup := hdist
  have hcard : points.toFinset.card = points.length := List.toFinset_card_of_nodup hnodup
  have hmain : toPoly r = toPoly p := by
    apply Polynomial.eq_of_degrees_lt_of_eval_finset_eq points.toFinset
    · rw [hcard, htp]
      rcases Nat.eq_zero_or_pos points.length with h0 | hpos
      · rw [h0]
        simp only [List.range_zero, List.map_nil, List.sum_nil, Polynomial.degree_zero]
        exact WithBot.bot_lt_coe 0
      · refine lt_of_le_of_lt (degree_list_sum_le_of_forall _ ?_)
          ((WithBot.coe_lt_coe).mpr (show points.length - 1 < points.length by omega))
        intro q hq
        obtain ⟨i, hi, rfl⟩ := List.mem_map.mp hq
        refine le_trans (Polynomial.degree_mul_le _ _) ?_
        have h1 := degree_basis_prod_le points i (List.mem_range.mp hi)
        calc (Polynomial.C ((points.map (evaluate p)).getD i 0 *
                (((List.range points.length).filter (fun j => !(i == j))).map
                  (fun j => points.getD i 0 - points.getD j 0)).prod⁻¹)).degree +
              (((List.range points.length).filter (fun j => !(i == j))).map
                (fun j => Polynomial.X - Polynomial.C (points.getD j 0))).prod.degree ≤
            0 + ((points.length - 1 : ℕ) : WithBot ℕ) :=
              add_le_add Polynomial.degree_C_le h1
          _ = ((points.length - 1 : ℕ) : WithBot ℕ) := zero_add _
    · rw [hcard, ← toPoly_popZeros p]
      exact lt_of_lt_of_le (toPoly_degree_lt _) (by exact_mod_cast hdeg)
    · intro x hx
      rw [List.mem_toFinset] at hx
      obtain ⟨m, hm, rfl⟩ := List.mem_iff_getElem.mp hx
      rw [htp, ← List.getD_eq_getElem points 0 hm,
        lagrange_sum_eval points (points.map (evaluate p)) hdist m hm]
      have hv : (points.map (evaluate p)).getD m 0 = evaluate p (points.getD m 0) := by
        rw [List.getD_eq_getElem _ _ (by simpa using hm), List.getElem_map,
          List.getD_eq_getElem _ _ hm]
      rw [hv, evaluate_eq_eval]
  rw [hr]
  simp only [Option.map_some', Except.map]
  rw [popZeros_congr hmain]

/-- C10: whenever `interpolate` is called with equal-length inputs whose
point list contains two equal entries, the Lagrange denominator product for
one of those positions is zero, the `inverse().unwrap()` branch is reached,
and the call aborts (`none`): duplicate points are never reported as
`LengthMismatch` or any other returned error. -/
theorem interpolate_duplicate_panics (points values : List F)
    (hlen : points.length = values.length) (i j : Nat) (hij : i ≠ j)
    (hi : i < points.length) (hj : j < points.length)
    (heq : points.getD i 0 = points.getD j 0) :
    interpolate points values = none := by
  have hzero : (List.range points.length).foldl
      (fun den k => if i = k then den
        else den * (points.getD i 0 - points.getD k 0)) 1 = 0 := by
    rw [denominator_foldl, one_mul]
    apply List.prod_eq_zero
    refine List.mem_map.mpr ⟨j, List.mem_filter.mpr
      ⟨List.mem_range.mpr hj, by simp [hij]⟩, ?_⟩
    rw [heq, sub_self]
  have key : foldOption
      (fun (result : List F) (t : Nat) =>
        let numerator := (List.range points.length).foldl
          (fun num j => if t = j then num else mul num [-(points.getD j 0), 1]) [1]
        let denominator := (List.range points.length).foldl
          (fun den j => if t = j then den
            else den * (points.getD t 0 - points.getD j 0)) 1
        if denominator = 0 then none
        else some (add result (numerator.map
          (fun x => x * values.getD t 0 * denominator⁻¹))))
      (List.replicate points.length 0) (List.range points.length) = none := by
    refine foldOption_of_none _ i ?_ _ _ (List.mem_range.mpr hi)
    intro b'
    show (if (List.range points.length).foldl
        (fun den j => if i = j then den
          else den * (points.getD i 0 - points.getD j 0)) 1 = 0 then none
      else some (add b' (((List.range points.length).foldl
        (fun num j => if i = j then num else mul num [-(points.getD j 0), 1]) [1]).map
        (fun x => x * values.getD i 0 * ((List.range points.length).foldl
          (fun den j => if i = j then den
            else den * (points.getD i 0 - points.getD j 0)) 1)⁻¹)))) = none
    rw [if_pos hzero]
  unfold interpolate
  rw [if_neg (by omega), key]
  rfl

/-- C5 (amended): `div` returns the `DivisionByZero` error exactly for an
empty or all-zero denominator; for other denominators it returns `Ok [0]`
when the numerator is shorter, returns some `Ok` quotient when the stored
leading (last) coefficient is nonzero, and aborts on the in-loop division by
a zero leading coefficient otherwise. -/
theorem div_characterization (p1 p2 : List F) :
    (div p1 p2 = some (Except.error PolyErr.divisionByZero) ↔
      (p2.isEmpty ∨ ∀ x ∈ p2, x = 0)) ∧
    (¬(p2.isEmpty ∨ ∀ x ∈ p2, x = 0) → p1.length < p2.length →
      div p1 p2 = some (Except.ok [0])) ∧
    (∀ c, ¬(p2.isEmpty ∨ ∀ x ∈ p2, x = 0) → p2.length ≤ p1.length →
      p2.getLast? = some c → c ≠ 0 → ∃ q, div p1 p2 = some (Except.ok q)) ∧
    (¬(p2.isEmpty ∨ ∀ x ∈ p2, x = 0) → p2.length ≤ p1.length →
      p2.getLast? = some 0 → div p1 p2 = none) := by
  refine ⟨div_error_iff p1 p2, ?_, ?_, div_panic p1 p2⟩
  · intro hbad hlen
    unfold div
    rw [if_neg hbad, if_pos hlen]
  · intro c hbad hlen hc h0
    obtain ⟨q, r, hq, _, _, _⟩ := div_spec_exact p1 p2 c hc h0 hlen
    exact ⟨q, hq⟩

theorem toPoly_degree_eq_of_getLast {l : List F} {c : F} (hc : l.getLast? = some c)
    (h0 : c ≠ 0) : (toPoly l).degree = ((l.length - 1 : ℕ) : WithBot ℕ) := by
  obtain ⟨l', rfl⟩ := List.getLast?_eq_some_iff.mp hc
  rw [toPoly_append]
  have h1 : toPoly [c] = Polynomial.C c := by
    have h2 : toPoly [c] = Polynomial.C c + Polynomial.X * toPoly ([] : List F) := rfl
    rw [h2, toPoly_nil, mul_zero, add_zero]
  have h2 : (Polynomial.X ^ l'.length * toPoly [c]).degree = (l'.length : WithBot ℕ) := by
    rw [h1, mul_comm, Polynomial.degree_C_mul_X_pow _ h0]
  rw [Polynomial.degree_add_eq_right_of_degree_lt (by rw [h2]; exact toPoly_degree_lt l'),
    h2]
  congr 1
  simp

/-- C4 (amended): for a nonempty `p` and a `q` whose stored leading (last)
coefficient is nonzero, `div (mul p q) q` returns `Ok` of exactly the
coefficient list `p`. -/
theorem div_mul_roundtrip (p q : List F) (c : F) (hp : p ≠ [])
    (hc : q.getLast? = some c) (h0 : c ≠ 0) :
    div (mul p q) q = some (Except.ok p) := by
  have hqne : q ≠ [] := by
    intro h
    rw [h] at hc
    simp at hc
  have hqpos : 0 < q.length := List.length_pos.mpr hqne
  have hppos : 0 < p.length := List.length_pos.mpr hp
  have hmlen : (mul p q).length = p.length + q.length - 1 := mul_length p q
  obtain ⟨Q, r, hdiv, hrlen, hQlen, hid⟩ :=
    div_spec_exact (mul p q) q c hc h0 (by rw [hmlen]; omega)
  have hQlen' : Q.length = p.length := by
    rw [hQlen, hmlen]
    omega
  have hqdeg : (toPoly q).degree = ((q.length - 1 : ℕ) : WithBot ℕ) :=
    toPoly_degree_eq_of_getLast hc h0
  have hQP : toPoly Q = toPoly p := by
    by_contra hne
    have hD : toPoly Q - toPoly p ≠ 0 := sub_ne_zero.mpr hne
    have hiddeg : (toPoly Q - toPoly p) * toPoly q = -toPoly r := by
      have hconv : toPoly Q * toPoly q + toPoly r = toPoly p * toPoly q := by
        rw [hid, toPoly_mul]
      linear_combination hconv
    have hdeg1 : ((q.length - 1 : ℕ) : WithBot ℕ) ≤
        ((toPoly Q - toPoly p) * toPoly q).degree := by
      rw [Polynomial.degree_mul]
      calc ((q.length - 1 : ℕ) : WithBot ℕ) = 0 + ((q.length - 1 : ℕ) : WithBot ℕ) :=
            (zero_add _).symm
        _ ≤ (toPoly Q - toPoly p).degree + (toPoly q).degree :=
            add_le_add (Polynomial.zero_le_degree_iff.mpr hD) (le_of_eq hqdeg.symm)
    have hdeg2 : (-toPoly r).degree < ((q.length - 1 : ℕ) : WithBot ℕ) := by
      rw [Polynomial.degree_neg]
      refine lt_of_lt_of_le (toPoly_degree_lt r) ?_
      exact_mod_cast (show r.length ≤ q.length - 1 by omega)
    rw [hiddeg] at hdeg1
    exact absurd (lt_of_le_of_lt hdeg1 hdeg2) (lt_irrefl _)
  have hlists : Q = p := by
    apply List.ext_getElem hQlen'
    intro n h1 h2
    rw [← List.getD_eq_getElem Q 0 h1, ← List.getD_eq_getElem p 0 h2,
      ← toPoly_coeff, ← toPoly_coeff, hQP]
  rw [hdiv, hlists]

/-- C6 (amended): after `setup` with degree `d`, `commit poly` always loops
over `d + 1` slots: it succeeds exactly when `poly` has at least `d + 1`
coefficients, returning `Σ_{i=0}^{d} crs_g1[i]·poly[i]` (coefficients beyond
index `d` are ignored), and aborts with an index-out-of-range panic for
shorter inputs. -/
theorem commit_characterization (g1 g2 secret : F) (d : Nat) (p : List F) :
    ((KZG.new g1 g2 d).setup secret).commit p =
      if d + 1 ≤ p.length then
        some (∑ i ∈ Finset.range (d + 1), g1 * secret ^ i * p.getD i 0)
      else none := by
  unfold KZG.commit KZG.setup KZG.new
  simp only [List.nil_append]
  by_cases h : d + 1 ≤ p.length
  · rw [if_pos ⟨by simp, h⟩, if_pos h]
    congr 1
    apply Finset.sum_congr rfl
    intro i hi
    rw [getD_map_range, if_pos (Finset.mem_range.mp hi)]
  · rw [if_neg (fun hh => h hh.2), if_neg h]

theorem commit_eval (kzg : KZG F) (g1 s : F) (d : Nat) (p : List F)
    (hcrs : kzg.crs_g1 = (List.range (d + 1)).map (fun i => g1 * s ^ i))
    (hdeg : kzg.degree = d) (hp : p.length = d + 1) :
    kzg.commit p = some (g1 * evaluate p s) := by
  unfold KZG.commit
  rw [hdeg, hcrs]
  rw [if_pos ⟨by simp, by omega⟩]
  congr 1
  unfold evaluate
  rw [hp, Finset.mul_sum]
  apply Finset.sum_congr rfl
  intro i hi
  rw [getD_map_range, if_pos (Finset.mem_range.mp hi)]
  ring

theorem openPoly_eval (kzg : KZG F) (g1 s : F) (d : Nat) (p : List F) (z : F)
    (hcrs : kzg.crs_g1 = (List.range (d + 1)).map (fun i => g1 * s ^ i))
    (hp : p.length = d + 1) :
    ∃ qe : F, kzg.openPoly p z = some (g1 * qe) ∧
      qe * (s - z) = evaluate p s - evaluate p z := by
  rcases p with _ | ⟨p0, rest⟩
  · simp at hp
  · have hnum_eval : ∀ t, evaluate ((p0 - evaluate (p0 :: rest) z) :: rest) t =
        evaluate (p0 :: rest) t - evaluate (p0 :: rest) z := by
      intro t
      simp only [evaluate_cons]
      ring
    have hz0 : evaluate ((p0 - evaluate (p0 :: rest) z) :: rest) z = 0 := by
      rw [hnum_eval]
      ring
    obtain ⟨q, hdiv, hqlen, hqev⟩ := div_linear_exact _ z hz0
    have hnumlen : ((p0 - evaluate (p0 :: rest) z) :: rest).length = d + 1 := by
      simpa using hp
    have hqlen2 : q.length ≤ d + 1 := by
      rw [hqlen, hnumlen]
      omega
    have hstep : kzg.openPoly (p0 :: rest) z =
        if q.length ≤ kzg.crs_g1.length then
          some (∑ i ∈ Finset.range q.length, kzg.crs_g1.getD i 0 * q.getD i 0)
        else none := by
      unfold KZG.openPoly
      show (match unwrapResult (div ((p0 - evaluate (p0 :: rest) z) :: rest) [-z, 1]) with
        | some quotient =>
          if quotient.length ≤ kzg.crs_g1.length then
            some (∑ i ∈ Finset.range quotient.length,
              kzg.crs_g1.getD i 0 * quotient.getD i 0)
          else none
        | none => none) =
        if q.length ≤ kzg.crs_g1.length then
          some (∑ i ∈ Finset.range q.length, kzg.crs_g1.getD i 0 * q.getD i 0)
        else none
      rw [hdiv]
      rfl
    rw [hstep, if_pos (by rw [hcrs]; simpa using hqlen2)]
    refine ⟨evaluate q s, ?_, ?_⟩
    · congr 1
      unfold evaluate
      rw [Finset.mul_sum]
      apply Finset.sum_congr rfl
      intro i hi
      have hiq : i < q.length := Finset.mem_range.mp hi
      rw [hcrs, getD_map_range, if_pos (by omega)]
      ring
    · rw [hqev s, hnum_eval s]

/-- C1: for every KZG instance set up with maximum degree `d`, every
polynomial given by `d + 1` coefficients (every polynomial of degree at most
`d` in its canonical representation), and every point `z`, committing,
opening at `z`, and verifying against `evaluate p z` succeeds and returns
`true`. -/
theorem kzg_single_correct (g1 g2 secret z : F) (d : Nat) (p : List F)
    (hp : p.length = d + 1) :
    ((((KZG.new g1 g2 d).setup secret).commit p).bind fun c =>
      (((KZG.new g1 g2 d).setup secret).openPoly p z).map fun pi =>
        ((KZG.new g1 g2 d).setup secret).verify z (evaluate p z) c pi) = some true := by
  have hcrs1 : ((KZG.new g1 g2 d).setup secret).crs_g1 =
      (List.range (d + 1)).map (fun i => g1 * secret ^ i) := by
    unfold KZG.setup KZG.new
    simp
  rw [commit_eval _ g1 secret d p hcrs1 rfl hp]
  obtain ⟨qe, hopen, hqe⟩ := openPoly_eval _ g1 secret d p z hcrs1 hp
  rw [hopen]
  show some (((KZG.new g1 g2 d).setup secret).verify z (evaluate p z)
    (g1 * evaluate p secret) (g1 * qe)) = some true
  congr 1
  unfold KZG.verify pairing
  rw [beq_iff_eq]
  show g1 * qe * (g2 * secret - g2 * z) =
    (g1 * evaluate p secret - g1 * evaluate p z) * g2
  linear_combination g1 * g2 * hqe

theorem log2fuel_eq (fuel : Nat) :
    ∀ n : Nat, n ≤ fuel → log2fuel fuel n = Nat.log2 n := by
  induction fuel with
  | zero =>
    intro n h
    have hz : n = 0 := by omega
    subst hz
    show 0 = Nat.log2 0
    conv_rhs => rw [Nat.log2]
    rw [if_neg (by omega)]
  | succ f ih =>
    intro n h
    show (if n ≤ 1 then 0 else log2fuel f (n / 2) + 1) = Nat.log2 n
    by_cases h1 : n ≤ 1
    · rw [if_pos h1]
      symm
      conv_lhs => rw [Nat.log2]
      rw [if_neg (by omega)]
    · rw [if_neg h1, ih (n / 2) (by omega)]
      symm
      conv_lhs => rw [Nat.log2]
      rw [if_pos (by omega)]

theorem log2N_eq (n : Nat) : log2N n = Nat.log2 n := log2fuel_eq n n le_rfl

theorem isPow2_iff (n : Nat) : isPow2 n = true ↔ ∃ k, n = 2 ^ k := by
  unfold isPow2
  simp only [Bool.and_eq_true, decide_eq_true_eq, log2N_eq]
  constructor
  · rintro ⟨h1, h2⟩
    exact ⟨Nat.log2 n, h2.symm⟩
  · rintro ⟨k, rfl⟩
    refine ⟨by positivity, ?_⟩
    rw [Nat.log2_two_pow]

theorem nextPow2_eq_self_iff (n : Nat) (hn : 1 ≤ n) :
    nextPow2 n = n ↔ isPow2 n = true := by
  unfold nextPow2
  by_cases h1 : n ≤ 1
  · have hone : n = 1 := by omega
    subst hone
    decide
  · rw [if_neg h1]
    push_neg at h1
    rw [log2N_eq]
    constructor
    · intro h
      rw [isPow2_iff]
      exact ⟨Nat.log2 (n - 1) + 1, h.symm⟩
    · intro h
      obtain ⟨k, rfl⟩ := (isPow2_iff n).mp h
      have hk : 1 ≤ k := by
        by_contra hk0
        push_neg at hk0
        have hz : k = 0 := by omega
        subst hz
        simp at h1
      have hlow : 2 ^ (k - 1) ≤ 2 ^ k - 1 := by
        have hsplit : 2 ^ k = 2 * 2 ^ (k - 1) := by
          calc 2 ^ k = 2 ^ (k - 1 + 1) := by rw [Nat.sub_add_cancel hk]
            _ = 2 ^ (k - 1) * 2 := pow_succ 2 (k - 1)
            _ = 2 * 2 ^ (k - 1) := by ring
        have hpos : 1 ≤ 2 ^ (k - 1) := Nat.one_le_two_pow
        omega
      have hne : 2 ^ k - 1 ≠ 0 := by
        have hpos : 1 ≤ 2 ^ (k - 1) := Nat.one_le_two_pow
        omega
      have hlog : Nat.log2 (2 ^ k - 1) = k - 1 := by
        apply Nat.le_antisymm
        · have hlt := (Nat.log2_lt hne).mpr
            (show 2 ^ k - 1 < 2 ^ k from by
              have hpos : 1 ≤ 2 ^ k := Nat.one_le_two_pow
              omega)
          omega
        · exact (Nat.le_log2 hne).mpr hlow
      rw [hlog, Nat.sub_add_cancel hk]

/-- C9: `get_omega` aborts (out-of-bounds padding write, or the length-zero
underflow) exactly when neither the input length nor the input length minus
one is a power of two; for every other length it returns a value. -/
theorem get_omega_none_iff (cfg : FieldConfig F) (l : List F) :
    get_omega cfg l = none ↔
      ¬(isPow2 l.length = true ∨ isPow2 (l.length - 1) = true) := by
  unfold get_omega
  cases hl : l.length with
  | zero =>
    have h0 : isPow2 0 = false := by decide
    simp [h0]
  | succ n =>
    simp only [Nat.succ_sub_one]
    by_cases h1 : isPow2 n
    · rw [if_pos h1]
      constructor
      · intro h
        cases h
      · intro h
        exact absurd (Or.inr h1) h
    · rw [if_neg h1]
      by_cases h2 : nextPow2 (n + 1) = n + 1
      · rw [if_pos h2]
        have hp := (nextPow2_eq_self_iff (n + 1) (by omega)).mp h2
        constructor
        · intro h
          cases h
        · intro h
          exact absurd (Or.inl hp) h
      · rw [if_neg h2]
        constructor
        · intro _
          rintro (h | h)
          · exact h2 ((nextPow2_eq_self_iff (n + 1) (by omega)).mpr h)
          · exact h1 h
        · intro _
          rfl

theorem key_gen_li_length (cfg : FieldConfig F) (g1 g2 : F) (d : Nat) (s : F)
    (inst : ASVC F) (h : key_gen cfg g1 g2 d s = some inst) :
    inst.proving_key.li_commitment.length = d := by
  simp only [key_gen] at h
  cases hrows : mapOption (keyGenRow cfg d
      ((List.range (d + 1)).map (fun i => g1 * s ^ i))
      (((List.replicate (d + 1) (0 : F)).set 0 (-1)).set d 1))
      (List.range d) with
  | none =>
    rw [hrows] at h
    exact Option.noConfusion h
  | some rows =>
    rw [hrows] at h
    have h2 := Option.some.inj h
    rw [← h2]
    show (rows.map (fun r => r.2.1)).length = d
    rw [List.length_map, mapOption_length _ _ _ hrows, List.length_range]

/-- C8 (amended): for an ASVC instance produced by `key_gen` with degree `d`,
`vector_commit` returns `Σ_i li_commitment[i] · vector[i]` when the vector
has length `d`, and for every other length the `assert_eq!` aborts the call
(a panic, not a returned typed error). -/
theorem vector_commit_characterization (cfg : FieldConfig F) (g1 g2 : F) (d : Nat)
    (s : F) (inst : ASVC F) (h : key_gen cfg g1 g2 d s = some inst) (v : List F) :
    vector_commit inst v =
      if v.length = d then
        some (∑ i ∈ Finset.range v.length,
          inst.proving_key.li_commitment.getD i 0 * v.getD i 0)
      else none := by
  unfold vector_commit
  rw [key_gen_li_length cfg g1 g2 d s inst h]

/-- C2: counter-evidence for the claimed ASVC correctness property.  Over the
17-element field, for the `key_gen` instance with degree `2` (a power of
two), generators `1` and secret `2`, the vector `[5, 7]` and the index set
`[1]`, the whole pipeline
`verify_position (vector_commit v) I [v[i] for i in I] (prove_position I v)`
runs without aborting and returns `false`, not `true`: the denominators are
built from `ω^(loop counter)` over mismatched domain sizes while the
Lagrange-basis commitments use the degree-sized `ω`-domain. -/
theorem asvc_verify_position_false :
    (((key_gen cfg17 1 1 2 2).bind fun inst =>
      (vector_commit inst [5, 7]).bind fun c =>
        (prove_position cfg17 inst [1] [5, 7]).bind fun pi =>
          verify_position cfg17 inst c [1] [7] pi) = some false) ∧
    isPow2 2 = true := by decide

/-- C3: `aggregate_proofs` does not compute the specified weighted sum.  Over
the 17-element field, `13` is a primitive root of unity for a degree-4
evaluation domain (`13^4 = 1`, `13^2 ≠ 1`); for the index set `[0, 3]` and
proofs `[1, 2]` the code returns `15` (it derives `ω` from a domain of size
`|I| = 2` and multiplies in `(X - ω^k)` for the loop position `k ≥ 1`),
while the specified `Σ_k proofs[k] · A'(ω^{i_k})` with
`A(X) = Π_{i ∈ I} (X - ω^i)` over the degree-4 domain is `3`. -/
theorem aggregate_proofs_deviates :
    aggregate_proofs cfg17 [0, 3] [1, 2] = some 15 ∧
    aggregate_proofs_spec (13 : Fin 17) [0, 3] [1, 2] = 3 ∧
    (13 : Fin 17) ^ 4 = 1 ∧ (13 : Fin 17) ^ 2 ≠ 1 ∧ (15 : Fin 17) ≠ 3 := by decide

/-- Counterexample to C4 as stated: for `q = [1, 0]` (a nonzero polynomial
with a trailing zero stored coefficient) and `p = [1]`, `div (mul p q) q`
aborts inside the loop (division by the zero leading coefficient) instead of
returning `Ok p`; and for `p = []` with `q = [2]` the call returns `Ok [0]`,
which is not the list `p`. -/
theorem div_mul_roundtrip_counterexample :
    div (mul ([1] : List (Fin 17)) [1, 0]) [1, 0] = none ∧
    (∃ x ∈ ([1, 0] : List (Fin 17)), x ≠ 0) ∧
    div (mul ([] : List (Fin 17)) [2]) [2] = some (Except.ok [0]) := by decide

theorem div_mul_roundtrip_witness :
    div (mul ([1, 2] : List (Fin 17)) [3, 1]) [3, 1] = some (Except.ok [1, 2]) :=
  div_mul_roundtrip [1, 2] [3, 1] 1 (by decide) (by decide) (by decide)

/-- Counterexample to C5 as stated: `[1, 0]` is neither empty nor all-zero,
yet `div [0, 1] [1, 0]` returns no `Ok` at all — it aborts on the in-loop
division by the zero leading coefficient. -/
theorem div_characterization_counterexample :
    div ([0, 1] : List (Fin 17)) [1, 0] = none ∧
    ¬(([1, 0] : List (Fin 17)).isEmpty ∨ ∀ x ∈ ([1, 0] : List (Fin 17)), x = 0) := by
  decide

theorem div_characterization_witness :
    div ([3] : List (Fin 17)) [1, 1] = some (Except.ok [0]) :=
  (div_characterization [3] [1, 1]).2.1 (by decide) (by decide)

/-- Counterexample to C6 as stated: with degree `1`, the polynomial `[1]`
satisfies `poly.len() ≤ degree + 1` yet `commit` aborts with an
index-out-of-range panic instead of succeeding. -/
theorem commit_characterization_counterexample :
    ((KZG.new (1 : Fin 17) 1 1).setup 2).commit [1] = none ∧
    ([1] : List (Fin 17)).length ≤ 1 + 1 := by decide

theorem interpolate_roundtrip_witness :
    (interpolate ([0, 1, 2] : List (Fin 17))
      ([0, 1, 2].map (evaluate [1, 2]))).map (Except.map popZeros) =
      some (Except.ok (popZeros [1, 2])) :=
  interpolate_roundtrip [0, 1, 2] [1, 2] (by decide) (by decide)

/-- Counterexample to C8 as stated: the degree-2 `key_gen` instance exists,
and `vector_commit` on the length-1 vector `[5]` aborts (the `assert_eq!`
panic, modelled `none`) instead of returning a `LengthMismatch` error
value. -/
theorem vector_commit_counterexample :
    ((key_gen cfg17 1 1 2 2).bind fun inst => vector_commit inst [5]) = none ∧
    (key_gen cfg17 1 1 2 2).isSome = true := by decide

theorem vector_commit_characterization_witness :
    vector_commit inst17 [5, 7] = some 4 :=
  (vector_commit_characterization cfg17 1 1 2 2 inst17 (by rfl) [5, 7]).trans (by decide)

theorem interpolate_duplicate_panics_witness :
    interpolate ([1, 1] : List (Fin 17)) [2, 3] = none :=
  interpolate_duplicate_panics [1, 1] [2, 3] rfl 0 1 (by decide) (by decide) (by decide)
    (by decide)

theorem kzg_single_correct_witness :
    ((((KZG.new (2 : Fin 17) 3 1).setup 2).commit [1, 2]).bind fun c =>
      (((KZG.new (2 : Fin 17) 3 1).setup 2).openPoly [1, 2] 3).map fun pi =>
        ((KZG.new (2 : Fin 17) 3 1).setup 2).verify 3 (evaluate [1, 2] 3) c pi) =
      some true :=
  kzg_single_correct 2 3 2 3 1 [1, 2] (by decide)

end KzgRust
